import Mathlib

/-!
Verification development for the g_tessellate_area repository.

The Delaunay engine (src/src/delaunay_tri.c) is embedded shallowly.
Coordinates are exact rational scalars represented as explicit
numerator-denominator pairs (Fr below) whose operations are integer
polynomials, so every comparison the C code makes through the exact
geometric predicate library of Shewchuk evaluates by kernel reduction;
the interpretation map Fr.val into the rationals and the lemmas beside
it state that these operations mean exactly rational arithmetic.
Vertices are slots 0, 1, 2, ... into the sorted vertex array; a function
pos maps a slot to its coordinates.  The circular doubly linked
adjacency ring of a vertex is represented by the list of its neighbor
slots read in next-pointer direction starting at the distinguished first
node (the node the adj pointer of the vertex designates), and the whole
adjacency state by the table of rings indexed by slot.  The grid engine
(src/src/gta_grid.c) is embedded over Fr where only ring arithmetic
occurs (construct_grid) and over the reals where sqrt is taken
(tessellate_grid).
-/

namespace GTess

/-! ## Exact scalars -/

/-- Exact scalar num/den; every constructor and operation below keeps
den positive.  This is the value a dtreal holds, in the exact-arithmetic
reading the Shewchuk predicate contract provides. -/
structure Fr where
  num : ℤ
  den : ℤ
  deriving DecidableEq

/-- Embed an integer. -/
def Fr.ofInt (n : ℤ) : Fr := ⟨n, 1⟩

/-- The scalar zero. -/
def f0 : Fr := Fr.ofInt 0

/-- Exact addition. -/
def fadd (a b : Fr) : Fr := ⟨a.num * b.den + b.num * a.den, a.den * b.den⟩

/-- Exact subtraction. -/
def fsub (a b : Fr) : Fr := ⟨a.num * b.den - b.num * a.den, a.den * b.den⟩

/-- Exact multiplication. -/
def fmul (a b : Fr) : Fr := ⟨a.num * b.num, a.den * b.den⟩

/-- Exact negation. -/
def fneg (a : Fr) : Fr := ⟨-a.num, a.den⟩

/-- Exact square. -/
def fsq (a : Fr) : Fr := fmul a a

/-- Exact strict comparison (valid when both dens are positive). -/
def flt (a b : Fr) : Bool := decide (a.num * b.den < b.num * a.den)

/-- Exact division, keeping the denominator positive. -/
def fdiv (a b : Fr) : Fr :=
  if 0 ≤ b.num then ⟨a.num * b.den, a.den * b.num⟩
  else ⟨-(a.num * b.den), -(a.den * b.num)⟩

/-- Truncation toward zero, the semantics of the C cast (int) applied
to a real value. -/
def ftrunc (a : Fr) : ℤ := Int.tdiv a.num a.den

/-- Rational value of an exact scalar. -/
def Fr.val (a : Fr) : ℚ := (a.num : ℚ) / (a.den : ℚ)

/-! ## Geometric predicates (delaunay_tri.c lines 126-187) -/

/-- A point of the plane, two dtreal coordinates. -/
def Pt : Type := Fr × Fr

/-- Sign-exact orientation determinant, the contract of orient2d of the
Shewchuk predicate library: positive iff a, b, c are counterclockwise. -/
def orient2d (a b c : Pt) : Fr :=
  fsub (fmul (fsub a.1 c.1) (fsub b.2 c.2)) (fmul (fsub a.2 c.2) (fsub b.1 c.1))

/-- Squared distance of a point to d, the lifted third coordinate of the
incircle determinant. -/
def liftSq (p d : Pt) : Fr := fadd (fsq (fsub p.1 d.1)) (fsq (fsub p.2 d.2))

/-- Sign-exact incircle determinant, the contract of incircle of the
Shewchuk predicate library: positive iff d lies strictly inside the
circumcircle of the counterclockwise triangle a, b, c.  It is the 3 by 3
determinant with rows (px - dx, py - dy, (px-dx)^2 + (py-dy)^2) for p
among a, b, c. -/
def incircleDet (a b c d : Pt) : Fr :=
  fadd
    (fsub
      (fmul (fsub a.1 d.1)
        (fsub (fmul (fsub b.2 d.2) (liftSq c d)) (fmul (fsub c.2 d.2) (liftSq b d))))
      (fmul (fsub a.2 d.2)
        (fsub (fmul (fsub b.1 d.1) (liftSq c d)) (fmul (fsub c.1 d.1) (liftSq b d)))))
    (fmul (liftSq a d)
      (fsub (fmul (fsub b.1 d.1) (fsub c.2 d.2)) (fmul (fsub c.1 d.1) (fsub b.2 d.2))))

/-- ccw of delaunay_tri.c: orient2d(a, b, c) > 0.0. -/
def ccwP (a b c : Pt) : Bool := flt f0 (orient2d a b c)

/-- inCircle of delaunay_tri.c: incircle(a, b, c, d) > 0.0. -/
def inCircleP (a b c d : Pt) : Bool := flt f0 (incircleDet a b c d)

/-- Coordinate assignment: slot number of the vertex array to its point. -/
def PosMap : Type := ℕ → Pt

/-- ccw on vertex slots. -/
def ccwS (pos : PosMap) (a b c : ℕ) : Bool := ccwP (pos a) (pos b) (pos c)

/-- rightOf of delaunay_tri.c: rightOf(x, ea, eb) = ccw(x, eb, ea). -/
def rightOfS (pos : PosMap) (x ea eb : ℕ) : Bool := ccwS pos x eb ea

/-- leftOf of delaunay_tri.c: leftOf(x, ea, eb) = ccw(x, ea, eb). -/
def leftOfS (pos : PosMap) (x ea eb : ℕ) : Bool := ccwS pos x ea eb

/-- inCircle on vertex slots. -/
def inCircleS (pos : PosMap) (a b c d : ℕ) : Bool :=
  inCircleP (pos a) (pos b) (pos c) (pos d)

/-! ## Adjacency store (delaunay_tri.c lines 190-333)

A ring is the circular list of neighbor slots of one vertex, listed from
the first node following next pointers. -/

/-- Adjacency state: the table of neighbor rings, indexed by vertex
slot, one entry per vert struct of the allocated array. -/
def Adj : Type := List (List ℕ)

/-- Ring of vertex slot i (the adj field of the vert struct). -/
def getRing (A : Adj) (i : ℕ) : List ℕ := A.getD i []

/-- Store the ring of vertex slot i. -/
def setRing (A : Adj) (i : ℕ) (r : List ℕ) : Adj := A.set i r

/-- Adjacency state of n vertices with every ring empty, the state after
the initialization loop of dtriangulate (lines 430-433). -/
def emptyAdj (n : ℕ) : Adj := List.replicate n []

/-- Stopping node of the forward scan of insertNode (the else branch of
delaunay_tri.c lines 229-237): starting at the node after the first one,
advance while the candidate is strictly leftOf the ray to the current
neighbor; the scan stops at the first failing node, or back at the first
node when the whole ring is passed. -/
def leftScanStop (pos : PosMap) (parent inv h : ℕ) (t : List ℕ) : ℕ :=
  match t.dropWhile (fun w => leftOfS pos inv parent w) with
  | [] => h
  | c :: _ => c

/-- insertNode of delaunay_tri.c lines 210-245 on the ring of parent.
If the ring is empty the new node forms a singleton loop.  If the
candidate is rightOf the ray to the first neighbor, the backward scan
runs (lines 216-228); reaching the first node again makes the candidate
the new first (hull successor case).  Otherwise the forward scan runs
and, only in this branch, a node already holding the candidate suppresses
the insertion (line 235). -/
def insertNode (pos : PosMap) (parent inv : ℕ) : List ℕ → List ℕ
  | [] => [inv]
  | h :: t =>
    if rightOfS pos inv parent h then
      let rev := t.reverse
      let pre := rev.takeWhile (fun w => rightOfS pos inv parent w)
      let post := rev.dropWhile (fun w => rightOfS pos inv parent w)
      match post with
      | [] => inv :: h :: t
      | _ :: _ => h :: (post.reverse ++ inv :: pre.reverse)
    else
      let pre := t.takeWhile (fun w => leftOfS pos inv parent w)
      let post := t.dropWhile (fun w => leftOfS pos inv parent w)
      if leftScanStop pos parent inv h t = inv then h :: t
      else h :: (pre ++ inv :: post)

/-- deleteNode of delaunay_tri.c lines 247-268: remove the first node
holding the child, scanning in next-pointer direction from the first
node; when the first node is removed its successor is promoted. -/
def deleteNode (ring : List ℕ) (child : ℕ) : List ℕ := ring.erase child

/-- connectVerts of delaunay_tri.c lines 270-275. -/
def connectVerts (pos : PosMap) (A : Adj) (a b : ℕ) : Adj :=
  if a = b then A
  else setRing (setRing A a (insertNode pos a b (getRing A a))) b
    (insertNode pos b a (getRing A b))

/-- cutVerts of delaunay_tri.c lines 277-282. -/
def cutVerts (A : Adj) (a b : ℕ) : Adj :=
  if a = b then A
  else setRing (setRing A a (deleteNode (getRing A a) b)) b
    (deleteNode (getRing A b) a)

/-- first of delaunay_tri.c lines 285-289: the vertex the adj pointer of
vi designates, none when vi has no neighbors. -/
def firstS (A : Adj) (vi : ℕ) : Option ℕ := (getRing A vi).head?

/-- Helper of pred and succ: scan consecutive elements of the listed node
sequence and return the companion of the first node holding vj. -/
def pairFind (vj : ℕ) : List ℕ → Option ℕ
  | x :: y :: rest => if x = vj then some y else pairFind vj (y :: rest)
  | _ => none

/-- pred of delaunay_tri.c lines 291-311: the neighbor preceding vj in
the ring of vi, scanning prev-pointer direction from the first node.
None when vj is not adjacent to vi. -/
def predS (A : Adj) (vi vj : ℕ) : Option ℕ :=
  match getRing A vi with
  | [] => none
  | h :: t =>
    if h = vj then some ((h :: t).getLast (by simp))
    else pairFind vj ((h :: t).reverse)

/-- succ of delaunay_tri.c lines 313-333: the neighbor following vj in
the ring of vi, scanning next-pointer direction from the first node.
None when vj is not adjacent to vi. -/
def succS (A : Adj) (vi vj : ℕ) : Option ℕ :=
  match getRing A vi with
  | [] => none
  | h :: t => pairFind vj (h :: t ++ [h])

/-! ## Hull tangent finders (delaunay_tri.c lines 336-406)

The while loops carry a fuel argument; none models divergence, which no
claim exercises on its inputs. -/

/-- Loop of lct, delaunay_tri.c lines 353-369. -/
def lctGo (pos : PosMap) (A : Adj) : ℕ → ℕ → ℕ → Option ℕ → Option ℕ →
    Option (ℕ × ℕ)
  | 0, _, _, _, _ => none
  | fuel + 1, x, y, rfast, lfast =>
    match rfast, lfast with
    | some r, _ =>
      if rightOfS pos r x y then lctGo pos A fuel x r (succS A r y) lfast
      else match lfast with
        | some l =>
          if rightOfS pos l x y then lctGo pos A fuel l y rfast (predS A l x)
          else some (x, y)
        | none => some (x, y)
    | none, some l =>
      if rightOfS pos l x y then lctGo pos A fuel l y rfast (predS A l x)
      else some (x, y)
    | none, none => some (x, y)

/-- lct of delaunay_tri.c lines 337-370: lower common tangent of the two
hulls, seeded from the rightmost vertex of the left part and the leftmost
vertex of the right part. -/
def lct (fuel : ℕ) (pos : PosMap) (A : Adj) (lrightmost rleftmost : ℕ) :
    Option (ℕ × ℕ) :=
  let rfast := firstS A rleftmost
  let lfast := match firstS A lrightmost with
    | some fx => predS A lrightmost fx
    | none => none
  lctGo pos A fuel lrightmost rleftmost rfast lfast

/-- Loop of uct, delaunay_tri.c lines 389-405. -/
def uctGo (pos : PosMap) (A : Adj) : ℕ → ℕ → ℕ → Option ℕ → Option ℕ →
    Option (ℕ × ℕ)
  | 0, _, _, _, _ => none
  | fuel + 1, x, y, rfast, lfast =>
    match rfast, lfast with
    | some r, _ =>
      if leftOfS pos r x y then uctGo pos A fuel x r (predS A r y) lfast
      else match lfast with
        | some l =>
          if leftOfS pos l x y then uctGo pos A fuel l y rfast (succS A l x)
          else some (x, y)
        | none => some (x, y)
    | none, some l =>
      if leftOfS pos l x y then uctGo pos A fuel l y rfast (succS A l x)
      else some (x, y)
    | none, none => some (x, y)

/-- uct of delaunay_tri.c lines 373-406: upper common tangent. -/
def uct (fuel : ℕ) (pos : PosMap) (A : Adj) (lrightmost rleftmost : ℕ) :
    Option (ℕ × ℕ) :=
  let lfast := firstS A lrightmost
  let rfast := match firstS A rleftmost with
    | some fy => predS A rleftmost fy
    | none => none
  uctGo pos A fuel lrightmost rleftmost rfast lfast

/-! ## Zipper merge and the divide-and-conquer core
(delaunay_tri.c lines 509-601) -/

/-- Right candidate rise loop, delaunay_tri.c lines 558-563: while the
next predecessor wins the incircle test, cut the current candidate edge
and advance.  Returns the final state and candidate. -/
def riseRight (pos : PosMap) : ℕ → Adj → ℕ → ℕ → ℕ → Option (Adj × ℕ)
  | 0, _, _, _, _ => none
  | fuel + 1, A, li, ri, r1 =>
    match predS A ri r1 with
    | none => none
    | some r2 =>
      if inCircleS pos r1 li ri r2 then
        riseRight pos fuel (cutVerts A ri r1) li ri r2
      else some (A, r1)

/-- Left candidate rise loop, delaunay_tri.c lines 571-576. -/
def riseLeft (pos : PosMap) : ℕ → Adj → ℕ → ℕ → ℕ → Option (Adj × ℕ)
  | 0, _, _, _, _ => none
  | fuel + 1, A, li, ri, l1 =>
    match succS A li l1 with
    | none => none
    | some l2 =>
      if inCircleS pos li ri l1 l2 then
        riseLeft pos fuel (cutVerts A li l1) li ri l2
      else some (A, l1)

/-- Zipper merge loop of ord_dtriangulate, delaunay_tri.c lines 552-594:
connect the current base edge, compute and possibly rise the right and
left candidates, then advance the base until it reaches the upper common
tangent.  The final connect of the tangent itself (line 595) is done by
the caller. -/
def mergeLoop (pos : PosMap) : ℕ → Adj → ℕ → ℕ → ℕ → ℕ → Option Adj
  | 0, _, _, _, _, _ => none
  | fuel + 1, A, li, ri, uctl, uctr =>
    if li = uctl ∧ ri = uctr then some A
    else
      let A1 := connectVerts pos A li ri
      match predS A1 ri li with
      | none => none
      | some r10 =>
        let rres := if leftOfS pos r10 li ri
          then (riseRight pos fuel A1 li ri r10).map (fun p => (p.1, p.2, false))
          else some (A1, r10, true)
        match rres with
        | none => none
        | some (A2, r1, a) =>
          match succS A2 li ri with
          | none => none
          | some l10 =>
            let lres := if rightOfS pos l10 ri li
              then (riseLeft pos fuel A2 li ri l10).map (fun p => (p.1, p.2, false))
              else some (A2, l10, true)
            match lres with
            | none => none
            | some (A3, l1, b) =>
              if a then mergeLoop pos fuel A3 l1 ri uctl uctr
              else if b then mergeLoop pos fuel A3 li r1 uctl uctr
              else if ¬ inCircleS pos li ri r1 l1 then
                mergeLoop pos fuel A3 li r1 uctl uctr
              else mergeLoop pos fuel A3 l1 ri uctl uctr

/-- ord_dtriangulate of delaunay_tri.c lines 511-601 on vertex slots ia
to ib of the sorted array.  Returns the updated adjacency and the
leftmost and rightmost vertex of the triangulated part.  The case of at
most one point leaves the output vertices of the C code uninitialized
and is modelled as none; dtriangulate never reaches it. -/
def ord_dtriangulate (pos : PosMap) : ℕ → Adj → ℕ → ℕ → Option (Adj × ℕ × ℕ)
  | 0, _, _, _ => none
  | fuel + 1, A, ia, ib =>
    if ib - ia = 1 then
      some (connectVerts pos A ia ib, ia, ib)
    else if ib - ia = 2 then
      let A1 := connectVerts pos A ia (ia + 1)
      let A2 := connectVerts pos A1 (ia + 1) ib
      let A3 := if ccwS pos ia (ia + 1) ib || ccwS pos ia ib (ia + 1)
        then connectVerts pos A2 ia ib else A2
      some (A3, ia, ib)
    else if 3 ≤ ib - ia then
      let mid := (ia + ib) / 2
      match ord_dtriangulate pos fuel A ia mid with
      | none => none
      | some (AL, lo, li0) =>
        match ord_dtriangulate pos fuel AL (mid + 1) ib with
        | none => none
        | some (AR, ri0, ro) =>
          match lct fuel pos AR li0 ri0 with
          | none => none
          | some (lctl, lctr) =>
            match uct fuel pos AR li0 ri0 with
            | none => none
            | some (uctl, uctr) =>
              match mergeLoop pos fuel AR lctl lctr uctl uctr with
              | none => none
              | some AM => some (connectVerts pos AM uctl uctr, lo, ro)
    else none

/-! ## Triangle extraction (delaunay_tri.c lines 606-635) -/

/-- Consecutive node pairs of a ring together with the flag marking the
pair that wraps back to the first node. -/
def ringPairs (ring : List ℕ) : List (ℕ × ℕ × Bool) :=
  match ring with
  | [] => []
  | h :: t =>
    (List.zip (h :: t) (t ++ [h])).enum.map
      (fun p => (p.2.1, p.2.2, decide (p.1 = t.length)))

/-- Inner do-while of convertTrisFreeAdj, lines 616-628: emit the triple
of the vertex with each neighbor pair whose two members still have
nonempty adjacency, stopping at the convex hull wrap pair when it is not
rightOf. -/
def emitRing (pos : PosMap) (A : Adj) (v : ℕ) :
    List (ℕ × ℕ × Bool) → List (ℕ × ℕ × ℕ)
  | [] => []
  | (cur, nxt, isWrap) :: rest =>
    if getRing A cur ≠ [] ∧ getRing A nxt ≠ [] then
      if isWrap ∧ ¬ rightOfS pos cur v nxt then []
      else (v, cur, nxt) :: emitRing pos A v rest
    else emitRing pos A v rest

/-- Outer loop of convertTrisFreeAdj, lines 613-631: process each vertex
slot in order, then clear its adjacency (deleteAdj, line 630). -/
def convertLoop (pos : PosMap) : Adj → List ℕ → List (ℕ × ℕ × ℕ)
  | _, [] => []
  | A, i :: rest =>
    let ring := getRing A i
    let tris := if 2 ≤ ring.length then emitRing pos A i (ringPairs ring)
      else []
    tris ++ convertLoop pos (setRing A i []) rest

/-- convertTrisFreeAdj of delaunay_tri.c lines 606-635: the emitted
triangle index triples, mapped through INDEX to indices into the
original point array. -/
def convertTrisFreeAdj (pos : PosMap) (orig : ℕ → ℕ) (A : Adj)
    (nverts : ℕ) : List (ℕ × ℕ × ℕ) :=
  (convertLoop pos A (List.range nverts)).map
    (fun p => (orig p.1, orig p.2.1, orig p.2.2))

/-! ## Vertex construction, sorting and duplicate removal
(delaunay_tri.c lines 413-460)

The C code sorts an array of struct vert, 16 bytes each on the common
LP64 layout: an 8 byte little-endian coord pointer followed by an 8 byte
adj pointer (NULL throughout this phase).  The duplicate removal pass
then calls memmove with a BYTE count, so the array is modelled at byte
granularity: pointers are byte offsets into the flat points array, the
base address being 0. -/

/-- DTEPSILON of delaunay_tri.c line 30. -/
def dteps : Fr := ⟨1, 10 ^ 12⟩

/-- struct dTriangulation of the Delaunay engine interface. -/
structure DTri where
  npoints : ℕ
  points : List Fr
  nverts : ℕ
  ntriangles : ℕ
  triangles : List ℕ

/-- Little-endian bytes of an 8 byte pointer value. -/
def leBytes8 (n : ℕ) : List ℕ :=
  [n % 256, n / 256 % 256, n / 256 ^ 2 % 256, n / 256 ^ 3 % 256,
   n / 256 ^ 4 % 256, n / 256 ^ 5 % 256, n / 256 ^ 6 % 256,
   n / 256 ^ 7 % 256]

/-- Value of a little-endian byte list. -/
def decodeLE (bs : List ℕ) : ℕ := bs.foldr (fun b acc => b + 256 * acc) 0

/-- The 16 byte vert structs built at delaunay_tri.c lines 428-433:
vert i carries coord = points + 2 i (byte offset 16 i) and adj = NULL. -/
def buildChunks (npoints : ℕ) : List (List ℕ) :=
  (List.range npoints).map (fun i => leBytes8 (16 * i) ++ List.replicate 8 0)

/-- Coordinates a 16 byte vert chunk designates: dereference of its coord
pointer, XX and YY of delaunay_tri.c lines 105-111. -/
def chunkCoords (points : List Fr) (chunk : List ℕ) : Pt :=
  let ptr := decodeLE (chunk.take 8)
  (points.getD (ptr / 8) f0, points.getD (ptr / 8 + 1) f0)

/-- compareVerts of delaunay_tri.c lines 115-123 as a strict less-than:
the comparator returns 1 - 2 signbit(diff), negative exactly when the
deciding difference is negative. -/
def ltChunk (points : List Fr) (ca cb : List ℕ) : Bool :=
  let a := chunkCoords points ca
  let b := chunkCoords points cb
  let dx := fsub a.1 b.1
  if flt dx dteps && flt (fneg dteps) dx then flt (fsub a.2 b.2) f0
  else flt dx f0

/-- Insertion step of the sorting model. -/
def insertSorted (lt : List ℕ → List ℕ → Bool) (x : List ℕ) :
    List (List ℕ) → List (List ℕ)
  | [] => [x]
  | y :: ys => if lt x y then x :: y :: ys else y :: insertSorted lt x ys

/-- The qsort call of delaunay_tri.c line 436, modelled as a comparison
sort (insertion sort) driven by compareVerts; on inputs whose comparator
order is strict this is the unique sorted arrangement. -/
def sortChunks (lt : List ℕ → List ℕ → Bool) : List (List ℕ) → List (List ℕ)
  | [] => []
  | x :: xs => insertSorted lt x (sortChunks lt xs)

/-- memmove(dst, src, n) on a flat byte list; bytes are read from the
original list (memmove tolerates overlap), reads past the end yield 0. -/
def memmoveBytes (arr : List ℕ) (dst src n : ℕ) : List ℕ :=
  (List.range arr.length).map
    (fun k => if dst ≤ k ∧ k < dst + n then arr.getD (src + (k - dst)) 0
              else arr.getD k 0)

/-- Coordinates of vert i of the flat byte array. -/
def coordsAt (points : List Fr) (arr : List ℕ) (i : ℕ) : Pt :=
  chunkCoords points ((arr.drop (16 * i)).take 16)

/-- Duplicate removal pass of dtriangulate, delaunay_tri.c lines 440-452:
starting at i = 1, a vertex within DTEPSILON of its predecessor in both
coordinates is removed by memmove(v + i, v + i + 1, nverts - i + 1) —
a count of BYTES, not of 16 byte elements — and nverts is decremented;
otherwise i advances.  The fuel npoints bounds the iterations. -/
def dedupLoop (points : List Fr) : ℕ → List ℕ → ℕ → ℕ → List ℕ × ℕ
  | 0, arr, nverts, _ => (arr, nverts)
  | fuel + 1, arr, nverts, i =>
    if i < nverts then
      let c := coordsAt points arr i
      let p := coordsAt points arr (i - 1)
      let dx := fsub c.1 p.1
      let dy := fsub c.2 p.2
      if flt dx dteps && flt (fneg dteps) dx
          && flt dy dteps && flt (fneg dteps) dy then
        dedupLoop points fuel
          (memmoveBytes arr (16 * i) (16 * (i + 1)) (nverts - i + 1))
          (nverts - 1) i
      else dedupLoop points fuel arr nverts (i + 1)
    else (arr, nverts)

/-- Sorted vert byte array of a triangulation input. -/
def sortedArr (t : DTri) : List ℕ :=
  (sortChunks (ltChunk t.points) (buildChunks t.npoints)).flatten

/-- Result pair of the duplicate removal pass. -/
def dedupPair (t : DTri) : List ℕ × ℕ :=
  dedupLoop t.points t.npoints (sortedArr t) t.npoints 1

/-- Byte array after duplicate removal. -/
def dedupArr (t : DTri) : List ℕ := (dedupPair t).1

/-- Vertex count after duplicate removal (the value stored in nverts). -/
def dedupNverts (t : DTri) : ℕ := (dedupPair t).2

/-- Original point index of sorted vertex slot s: INDEX of
delaunay_tri.c lines 101-103, (coord - points) / 2. -/
def origOf (t : DTri) (s : ℕ) : ℕ :=
  decodeLE (((dedupArr t).drop (16 * s)).take 8) / 16

/-- Coordinates of sorted vertex slot s. -/
def posOf (t : DTri) : PosMap :=
  fun s => (t.points.getD (2 * origOf t s) f0, t.points.getD (2 * origOf t s + 1) f0)

/-- dtriangulate of delaunay_tri.c lines 413-507.  Fewer than MINPOINTS
points: print a diagnostic and return, the structure untouched (lines
416-421).  Fewer than 2 vertices after duplicate removal: print a
diagnostic and return, only nverts updated (lines 454-460).  Otherwise
triangulate the sorted vertices and store the triangle index list. -/
def dtriangulate (fuel : ℕ) (t : DTri) : Option DTri :=
  if t.npoints < 2 then some t
  else if dedupNverts t < 2 then some { t with nverts := dedupNverts t }
  else
    match ord_dtriangulate (posOf t) fuel (emptyAdj (dedupNverts t)) 0
      (dedupNverts t - 1) with
    | none => none
    | some (A, _, _) =>
      let tris := convertTrisFreeAdj (posOf t) (origOf t) A (dedupNverts t)
      some { t with nverts := dedupNverts t,
                    ntriangles := tris.length,
                    triangles := tris.flatMap (fun p => [p.1, p.2.1, p.2.2]) }

/-! ## Grid builder (gta_grid.c lines 80-112)

The reals of the grid builder do only ring arithmetic and comparisons,
modelled by exact scalars.  FLT_MAX and FLT_MIN are the float.h
constants: the largest finite float and the SMALLEST POSITIVE normalized
float; the min and max accumulators of construct_grid are initialized to
them (gta_grid.c lines 81-82). -/

/-- Largest finite single precision float, the value of FLT_MAX. -/
def FLT_MAX : Fr := Fr.ofInt ((2 ^ 24 - 1) * 2 ^ 104)

/-- Smallest positive normalized single precision float, the value of
FLT_MIN. -/
def FLT_MIN : Fr := ⟨1, 2 ^ 126⟩

/-- Min and max accumulators of construct_grid: per atom position, each
coordinate updates its min when below it and its max when above it
(gta_grid.c lines 85-96). -/
def scanStep (mm : (Fr × Fr) × (Fr × Fr) × (Fr × Fr)) (p : Fr × Fr × Fr) :
    (Fr × Fr) × (Fr × Fr) × (Fr × Fr) :=
  let mx := mm.1
  let my := mm.2.1
  let mz := mm.2.2
  ((if flt p.1 mx.1 then p.1 else mx.1, if flt mx.2 p.1 then p.1 else mx.2),
   (if flt p.2.1 my.1 then p.2.1 else my.1,
    if flt my.2 p.2.1 then p.2.1 else my.2),
   (if flt p.2.2 mz.1 then p.2.2 else mz.1,
    if flt mz.2 p.2.2 then p.2.2 else mz.2))

/-- construct_grid of gta_grid.c lines 80-112: scan all frame and atom
positions for the axis-wise min and max (accumulators initialized to
FLT_MAX and FLT_MIN), then dim = (int)((max - min)/cell_width) + 2 per
axis.  Returns the dimensions and the stored origin (minx, miny, minz). -/
def construct_grid (x : List (List (Fr × Fr × Fr))) (cell_width : Fr) :
    (ℤ × ℤ × ℤ) × (Fr × Fr × Fr) :=
  let mm := x.foldl (fun acc fr => fr.foldl scanStep acc)
    ((FLT_MAX, FLT_MIN), (FLT_MAX, FLT_MIN), (FLT_MAX, FLT_MIN))
  let dimx := ftrunc (fdiv (fsub mm.1.2 mm.1.1) cell_width) + 2
  let dimy := ftrunc (fdiv (fsub mm.2.1.2 mm.2.1.1) cell_width) + 2
  let dimz := ftrunc (fdiv (fsub mm.2.2.2 mm.2.2.1) cell_width) + 2
  ((dimx, dimy, dimz), (mm.1.1, mm.2.1.1, mm.2.2.1))

/-! ## Cell tessellator (gta_grid.c lines 194-251)

Heights are multiplied by the cell width and the triangle areas take a
square root (norm of a cross product), so this part is modelled over the
reals.  The heightmap and the cell area array are flat arrays; the area
array is allocated with (dimx-1)(dimy-1) entries (gta_grid.c line 105).
The zero store for an excluded cell uses index x*dimy + y (line 221)
while the computed store uses x*(dimy-1) + y (line 246); stores are
modelled as landing in the array only when the index is below its
allocated size, the out-of-range store of line 221 being recorded by
tessStores. -/

/-- Input state of tessellate_grid: grid dimensions, the generated
heightmap (a flat array read at x*dimy + y), and the cell width. -/
structure TGrid where
  dimx : ℕ
  dimy : ℕ
  heightmap : ℕ → ℤ
  cell_width : ℝ

/-- Heightmap entry of column (x, y): heightmap[x*dimy + y]. -/
def hmAt (g : TGrid) (x y : ℕ) : ℤ := g.heightmap (x * g.dimy + y)

/-- Allocated number of entries of the cell area array,
(dimx-1)*(dimy-1) from gta_grid.c line 105. -/
def areaSize (g : TGrid) : ℕ := (g.dimx - 1) * (g.dimy - 1)

/-- Index of the computed-area store of cell (x, y): x*(dimy-1) + y,
gta_grid.c line 246 (also the layout print_grid reads, line 284). -/
def slotOf (g : TGrid) (x y : ℕ) : ℕ := x * (g.dimy - 1) + y

/-- Index of the zero store of an excluded cell (x, y): x*dimy + y,
gta_grid.c line 221. -/
def zeroIdx (g : TGrid) (x y : ℕ) : ℕ := x * g.dimy + y

/-- Exclusion test of gta_grid.c lines 217-220: some of the four corner
heightmap entries of cell (x, y) is negative. -/
def cellExcluded (g : TGrid) (x y : ℕ) : Bool :=
  decide (hmAt g x y < 0) || decide (hmAt g x (y + 1) < 0)
  || decide (hmAt g (x + 1) y < 0) || decide (hmAt g (x + 1) (y + 1) < 0)

/-- Componentwise difference of 3-vectors, rvec_sub. -/
def rvec_sub (a b : ℝ × ℝ × ℝ) : ℝ × ℝ × ℝ :=
  (a.1 - b.1, a.2.1 - b.2.1, a.2.2 - b.2.2)

/-- Cross product of 3-vectors, cprod. -/
def cprod (a b : ℝ × ℝ × ℝ) : ℝ × ℝ × ℝ :=
  (a.2.1 * b.2.2 - a.2.2 * b.2.1,
   a.2.2 * b.1 - a.1 * b.2.2,
   a.1 * b.2.1 - a.2.1 * b.1)

/-- Euclidean norm of a 3-vector, norm. -/
noncomputable def norm3 (v : ℝ × ℝ × ℝ) : ℝ :=
  Real.sqrt (v.1 ^ 2 + v.2.1 ^ 2 + v.2.2 ^ 2)

/-- Area of cell (x, y), gta_grid.c lines 229-242: corners at heights
heightmap * cell_width over the unit cell, split by the diagonal from
corner 0 to corner 3; each triangle contributes half the norm of the
cross product of its edge vectors. -/
noncomputable def cellArea (g : TGrid) (x y : ℕ) : ℝ :=
  let w := g.cell_width
  let c0 : ℝ × ℝ × ℝ := (0, 0, (hmAt g x y : ℝ) * w)
  let c1 : ℝ × ℝ × ℝ := (0, w, (hmAt g x (y + 1) : ℝ) * w)
  let c2 : ℝ × ℝ × ℝ := (w, 0, (hmAt g (x + 1) y : ℝ) * w)
  let c3 : ℝ × ℝ × ℝ := (w, w, (hmAt g (x + 1) (y + 1) : ℝ) * w)
  let ab := rvec_sub c1 c0
  let ac := rvec_sub c2 c0
  let ad := rvec_sub c3 c0
  norm3 (cprod ab ad) / 2 + norm3 (cprod ad ac) / 2

/-- A store into the cell area array: lands at index i only when i is
below the allocated size (an index at or beyond the size leaves the
array itself unchanged; tessStores records every requested index). -/
def storeArea (g : TGrid) (ar : ℕ → ℝ) (i : ℕ) (v : ℝ) : ℕ → ℝ :=
  fun j => if i < areaSize g ∧ j = i then v else ar j

/-- Body of the doubly nested cell loop of tessellate_grid for one cell:
an excluded cell stores 0.0 at zeroIdx and adds nothing; an included
cell stores its area at slotOf and adds it to the accumulator
(gta_grid.c lines 216-247). -/
noncomputable def tessStep (g : TGrid) (st : (ℕ → ℝ) × ℝ) (c : ℕ × ℕ) :
    (ℕ → ℝ) × ℝ :=
  if cellExcluded g c.1 c.2 then
    (storeArea g st.1 (zeroIdx g c.1 c.2) 0, st.2)
  else
    (storeArea g st.1 (slotOf g c.1 c.2) (cellArea g c.1 c.2),
     st.2 + cellArea g c.1 c.2)

/-- Cells (x, y), x < m, y < n, in the row-major order of the loops of
tessellate_grid (x outer, y inner). -/
def rowMajor (m n : ℕ) : List (ℕ × ℕ) :=
  (List.range m).flatMap (fun x => (List.range n).map (fun y => (x, y)))

/-- tessellate_grid of gta_grid.c lines 194-251: fold the cell body over
all cells in row-major order from the zeroed area array; the second
component is the stored surface_area. -/
noncomputable def tessellate_grid (g : TGrid) : (ℕ → ℝ) × ℝ :=
  (rowMajor (g.dimx - 1) (g.dimy - 1)).foldl (tessStep g) (fun _ => 0, 0)

/-- Final cell area array entry at flat index i. -/
noncomputable def areasOut (g : TGrid) (i : ℕ) : ℝ := (tessellate_grid g).1 i

/-- Final surface_area of the grid. -/
noncomputable def surface_area (g : TGrid) : ℝ := (tessellate_grid g).2

/-- Indices of all stores into the cell area array requested by
tessellate_grid, in execution order: the zero store index of each
excluded cell and the computed store index of each included cell. -/
def tessStores (g : TGrid) : List ℕ :=
  (rowMajor (g.dimx - 1) (g.dimy - 1)).map
    (fun c => if cellExcluded g c.1 c.2 then zeroIdx g c.1 c.2
              else slotOf g c.1 c.2)

/-! ## Concrete inputs of the scenario theorems -/

/-- Value of one femto unit, the coordinate of scenario S4. -/
def fem : Fr := ⟨1, 10 ^ 15⟩

/-- Points (0,0), (1,0), (2,0) of scenario S3, already in lexicographic
order, with no pair within DTEPSILON. -/
def pts10 : List Pt := [(f0, f0), (Fr.ofInt 1, f0), (Fr.ofInt 2, f0)]

/-- Slot coordinates of the collinear triple. -/
def pos10 : PosMap := fun s => pts10.getD s (f0, f0)

/-- Triangulation input holding the collinear triple. -/
def t10 : DTri :=
  { npoints := 3, points := [f0, f0, Fr.ofInt 1, f0, Fr.ofInt 2, f0],
    nverts := 0, ntriangles := 0, triangles := [] }

/-- Adjacency component of an ord_dtriangulate result. -/
def adjOfRes (r : Option (Adj × ℕ × ℕ)) : Adj :=
  match r with
  | none => []
  | some (A, _, _) => A

/-- State of the adjacency graph after the three point base case on the
collinear triple. -/
def run10 : Adj := adjOfRes (ord_dtriangulate pos10 9 (emptyAdj 3) 0 2)

/-- Triangulation input of scenario S4: (0,0), (1,0), (0,1) and the
near-duplicate (1e-15, 1e-15) of the first point. -/
def t2bad : DTri :=
  { npoints := 4,
    points := [f0, f0, Fr.ofInt 1, f0, f0, Fr.ofInt 1, fem, fem],
    nverts := 0, ntriangles := 0, triangles := [] }

/-- A one point triangulation input whose output fields hold stale
values. -/
def t3bad : DTri :=
  { npoints := 1, points := [f0, f0], nverts := 7, ntriangles := 5,
    triangles := [9, 9, 9] }

/-- A two point input collapsing to one vertex after duplicate removal,
with stale output fields. -/
def t3bad2 : DTri :=
  { npoints := 2, points := [f0, f0, fem, f0], nverts := 0, ntriangles := 5,
    triangles := [7] }

/-- Coordinates of the insertNode duplication state: parent 0 at the
origin, neighbor 1 at (0,1), neighbor 2 at (1,0). -/
def posC7 : PosMap :=
  fun s => [(f0, f0), (f0, Fr.ofInt 1), (Fr.ofInt 1, f0)].getD s (f0, f0)

/-- Degenerate coordinate assignment placing every vertex at the
origin. -/
def posW : PosMap := fun _ => (f0, f0)

/-- A 3 by 3 grid whose heightmap is everywhere empty (-1). -/
def g5 : TGrid := { dimx := 3, dimy := 3, heightmap := fun _ => -1, cell_width := 1 }

/-- Duplicate test of the specification: both coordinate differences lie
strictly within DTEPSILON. -/
def isDupPt (q rep : Pt) : Bool :=
  flt (fsub q.1 rep.1) dteps && flt (fneg dteps) (fsub q.1 rep.1)
  && flt (fsub q.2 rep.2) dteps && flt (fneg dteps) (fsub q.2 rep.2)

/-- Modelled from the spec: the intended semantics of the duplicate
removal pass, compacting the sorted vertex list by dropping every point
that duplicates the retained representative before it (the correct
semantics is to compact the array of unique sorted vertices). -/
def dedupCompactSpec : List Pt → List Pt
  | [] => []
  | p :: rest => p :: dedupCompactGo p rest
where
  /-- Drop duplicates of the current representative, otherwise retain
  and advance the representative. -/
  dedupCompactGo (rep : Pt) : List Pt → List Pt
    | [] => []
    | q :: rest =>
      if isDupPt q rep then dedupCompactGo rep rest
      else q :: dedupCompactGo q rest

/-- The sorted vertex coordinates before duplicate removal. -/
def sortedPts (t : DTri) : List Pt :=
  (List.range t.npoints).map (fun i => coordsAt t.points (sortedArr t) i)

/-- A 2 by 2 grid whose single cell has all corners empty (-1). -/
def gW : TGrid := { dimx := 2, dimy := 2, heightmap := fun _ => -1, cell_width := 1 }

/-- Final value a cell leaves in its own slot of the area array: zero
when excluded, its computed area otherwise. -/
noncomputable def cellVal (g : TGrid) (c : ℕ × ℕ) : ℝ :=
  if cellExcluded g c.1 c.2 then 0 else cellArea g c.1 c.2

/-! # Theorems -/

/-! ## List helpers for the adjacency store -/

theorem mem_of_dropWhile_cons {p : ℕ → Bool} :
    ∀ (t : List ℕ) (c : ℕ) (rest : List ℕ), t.dropWhile p = c :: rest → c ∈ t := by
  intro t
  induction t with
  | nil => intro c rest h; simp [List.dropWhile] at h
  | cons x xs ih =>
    intro c rest h
    rw [List.dropWhile_cons] at h
    by_cases hp : p x = true
    · rw [if_pos hp] at h
      exact List.mem_cons_of_mem x (ih c rest h)
    · rw [if_neg hp, List.cons_eq_cons] at h
      exact h.1 ▸ List.mem_cons_self x xs

/-- The inserted vertex is a member of the ring insertNode returns (when
suppressed as a duplicate it was already a member). -/
theorem mem_insertNode (pos : PosMap) (parent inv : ℕ) (ring : List ℕ) :
    inv ∈ insertNode pos parent inv ring := by
  match ring with
  | [] => simp [insertNode]
  | h :: t =>
    simp only [insertNode]
    by_cases hr : rightOfS pos inv parent h = true
    · simp only [hr, if_true]
      cases hpost : t.reverse.dropWhile (fun w => rightOfS pos inv parent w) with
      | nil => simp
      | cons c rest => simp
    · simp only [hr]
      rw [if_neg (by simp [hr])]
      by_cases hstop : leftScanStop pos parent inv h t = inv
      · simp only [hstop, if_true]
        unfold leftScanStop at hstop
        cases hpost : t.dropWhile (fun w => leftOfS pos inv parent w) with
        | nil =>
          rw [hpost] at hstop
          exact hstop ▸ List.mem_cons_self h t
        | cons c rest =>
          rw [hpost] at hstop
          exact List.mem_cons_of_mem h (hstop ▸ mem_of_dropWhile_cons t c rest hpost)
      · simp [hstop]

theorem getRing_setRing_self (A : Adj) (i : ℕ) (r : List ℕ) (h : i < A.length) :
    getRing (setRing A i r) i = r := by
  unfold getRing setRing
  rw [List.getD_eq_getElem?_getD, List.getElem?_set_self (by simpa using h)]
  rfl

theorem getRing_setRing_other (A : Adj) (i j : ℕ) (r : List ℕ) (h : j ≠ i) :
    getRing (setRing A i r) j = getRing A j := by
  unfold getRing setRing
  rw [List.getD_eq_getElem?_getD, List.getElem?_set_ne (by omega),
    ← List.getD_eq_getElem?_getD]

/-! ## Claim C7: adjacency insertion of an already present neighbor -/

/-- Claim C7, counterexample: insertNode is NOT a no-op on every already
present neighbor.  With parent 0 at the origin, ring [1, 2] and the
already present vertex 2 at (1, 0) rightOf the ray to the first neighbor
1 at (0, 1), the backward-scan branch runs, which carries no duplicate
check, and a second node holding 2 is spliced in. -/
theorem insertNode_duplicate_cex :
    2 ∈ ([1, 2] : List ℕ) ∧ insertNode posC7 0 2 [1, 2] = [1, 2, 2] ∧
    insertNode posC7 0 2 [1, 2] ≠ [1, 2] := by decide

/-- Claim C7, amended: insertNode(parent, in) leaves the ring unchanged
when the forward-scan branch runs (in is not rightOf the ray from parent
to the first neighbor) and its stopping node already holds in — the only
configuration the duplicate check of delaunay_tri.c line 235 covers.
Through the rightOf branch an already present neighbor is duplicated. -/
theorem insertNode_noop_left_scan (pos : PosMap) (p inv h : ℕ) (t : List ℕ)
    (h1 : rightOfS pos inv p h = false)
    (h2 : leftScanStop pos p inv h t = inv) :
    insertNode pos p inv (h :: t) = h :: t := by
  simp only [insertNode]
  rw [if_neg (by simp [h1]), if_pos h2]

/-- Witness of the amended claim C7 at a concrete state: inserting the
single neighbor 1 again into the singleton ring of 0 is a no-op. -/
theorem insertNode_noop_left_scan_witness :
    rightOfS posW 1 0 1 = false ∧ leftScanStop posW 0 1 1 [] = 1 ∧
    insertNode posW 0 1 [1] = [1] :=
  ⟨by decide, by decide, insertNode_noop_left_scan posW 0 1 1 [] (by decide) (by decide)⟩

/-! ## Claim C9: edge symmetry under connectVerts and cutVerts -/

/-- Claim C9: for distinct vertices of the array, after connectVerts
(a, b) and after cutVerts(a, b) the vertex b appears in the ring of a
iff a appears in the ring of b.  For the cut the rings are assumed
duplicate-free, the documented invariant of the adjacency graph (a
duplicated neighbor would survive deleteNode, which removes only the
first node found). -/
theorem connect_cut_edge_symmetry (pos : PosMap) (A : Adj) (a b : ℕ)
    (hab : a ≠ b) (ha : a < A.length) (hb : b < A.length)
    (nda : (getRing A a).Nodup) (ndb : (getRing A b).Nodup) :
    (b ∈ getRing (connectVerts pos A a b) a ↔
      a ∈ getRing (connectVerts pos A a b) b) ∧
    (b ∈ getRing (cutVerts A a b) a ↔ a ∈ getRing (cutVerts A a b) b) := by
  constructor
  · unfold connectVerts
    rw [if_neg hab]
    have hlen : a < (setRing A a (insertNode pos a b (getRing A a))).length := by
      unfold setRing; simpa using ha
    rw [getRing_setRing_other _ b a _ hab,
      getRing_setRing_self _ a _ ha,
      getRing_setRing_self _ b _ (by unfold setRing; simpa using hb)]
    exact iff_of_true (mem_insertNode pos a b (getRing A a))
      (mem_insertNode pos b a (getRing A b))
  · unfold cutVerts
    rw [if_neg hab]
    rw [getRing_setRing_other _ b a _ hab,
      getRing_setRing_self _ a _ ha,
      getRing_setRing_self _ b _ (by unfold setRing; simpa using hb)]
    unfold deleteNode
    refine iff_of_false (fun hmem => ?_) (fun hmem => ?_)
    · exact absurd rfl (nda.mem_erase_iff.1 hmem).1
    · exact absurd rfl (ndb.mem_erase_iff.1 hmem).1

/-- Witness of claim C9 at a concrete state: two vertices at the origin
with empty rings. -/
theorem connect_cut_edge_symmetry_witness :
    (1 ∈ getRing (connectVerts posW [[], []] 0 1) 0 ↔
      0 ∈ getRing (connectVerts posW [[], []] 0 1) 1) ∧
    (1 ∈ getRing (cutVerts [[], []] 0 1) 0 ↔
      0 ∈ getRing (cutVerts [[], []] 0 1) 1) :=
  connect_cut_edge_symmetry posW [[], []] 0 1 (by decide) (by decide)
    (by decide) (by decide) (by decide)

/-! ## Claim C10: the collinear triple -/

/-- Claim C10: triangulating the collinear points (0,0), (1,0), (2,0)
produces 0 triangles, and after the three point base case the adjacency
graph holds the edges 0-1 and 1-2 but not the edge 0-2. -/
theorem collinear_triple_run :
    (1 ∈ getRing run10 0 ∧ 0 ∈ getRing run10 1) ∧
    (2 ∈ getRing run10 1 ∧ 1 ∈ getRing run10 2) ∧
    2 ∉ getRing run10 0 ∧ 0 ∉ getRing run10 2 ∧
    (dtriangulate 9 t10).map DTri.ntriangles = some 0 := by decide

/-! ## Claim C3: the error paths of dtriangulate -/

/-- Claim C3, counterexample: on a one point input dtriangulate returns
without writing the output fields, so a stale ntriangles of 5 and a
stale triangle array survive; the structure does not carry ntriangles =
0 and an empty triangle array. -/
theorem dtriangulate_toofew_cex :
    (dtriangulate 9 t3bad).map DTri.ntriangles = some 5 ∧
    (dtriangulate 9 t3bad).map DTri.triangles = some [9, 9, 9] ∧
    (5 : ℕ) ≠ 0 := by decide

/-- Claim C3, amended: on both error paths (fewer than 2 points, or
fewer than 2 vertices after duplicate removal) dtriangulate reports the
diagnostic and returns leaving ntriangles and the triangle array at
their prior values; no triangulation is produced. -/
theorem dtriangulate_error_unmodified (fuel : ℕ) (t : DTri)
    (h : t.npoints < 2 ∨ dedupNverts t < 2) :
    ∃ r, dtriangulate fuel t = some r ∧ r.ntriangles = t.ntriangles ∧
      r.triangles = t.triangles := by
  by_cases h1 : t.npoints < 2
  · exact ⟨t, by simp [dtriangulate, h1], rfl, rfl⟩
  · have h2 : dedupNverts t < 2 := h.resolve_left h1
    exact ⟨{ t with nverts := dedupNverts t }, by simp [dtriangulate, h1, h2],
      rfl, rfl⟩

/-- Witness of the amended claim C3 on the second error path: a two
point input collapsing to one vertex after duplicate removal. -/
theorem dtriangulate_error_unmodified_witness :
    ∃ r, dtriangulate 9 t3bad2 = some r ∧ r.ntriangles = t3bad2.ntriangles ∧
      r.triangles = t3bad2.triangles :=
  dtriangulate_error_unmodified 9 t3bad2 (Or.inr (by decide))

/-! ## Claim C2: the duplicate removal pass -/

/-- Claim C2, the byte-count memmove at delaunay_tri.c line 446.  The
input t2bad holds the points (0,0), (1,0), (0,1), (1e-15, 1e-15); its
only DTEPSILON-duplicate pair is the first and last point, so removing
duplicates should retain nverts = 3 vertices (0,0), (0,1), (1,0) in
lexicographic order.  The pass instead moves nverts - i + 1 BYTES (not
vert structs): the first removal rewrites only the low bytes of the
coord pointer of slot 1, turning it into a second copy of the (0,1)
vert; the rescan then removes that copy as a fresh duplicate, and the
unique point (1,0) is lost: nverts ends at 2 and the retained slots
dereference to the original points 0 and 2 only. -/
theorem dedup_memmove_bytebug :
    dedupNverts t2bad = 2 ∧ origOf t2bad 0 = 0 ∧ origOf t2bad 1 = 2 ∧
    (dedupCompactSpec (sortedPts t2bad)).length = 3 ∧ (2 : ℕ) ≠ 3 := by decide

/-! ## Claim C5: the store indices of tessellate_grid -/

/-- Claim C5, the zero store index of gta_grid.c line 221.  On a 3 by 3
grid whose heightmap is everywhere -1, every cell is excluded and the
zero store of cell (1, 1) requests index 1*dimy + 1 = 4, while the area
array is allocated with (dimx-1)(dimy-1) = 4 entries: the store is out
of range. -/
theorem tessellate_store_oob :
    4 ∈ tessStores g5 ∧ areaSize g5 = 4 ∧ ¬ (4 < areaSize g5) := by decide

/-! ## Claim C6: the grid dimensions of construct_grid -/

set_option maxRecDepth 4000 in
/-- Claim C6, the max accumulators of gta_grid.c lines 81-82.  They are
initialized to FLT_MIN, the smallest POSITIVE normalized float, not to
the smallest finite float; for the single atom at (-1, -1, -1) with cell
width 1 the computed max stays FLT_MIN = 2^-126 instead of -1, so dimx
evaluates to (int)((2^-126 - (-1))/1) + 2 = 3 while the documented
formula floor((max - min)/cell_width) + 2 gives floor(0) + 2 = 2.  The
stored origin (the min side) is correct. -/
theorem construct_grid_fltmin_bug :
    (construct_grid [[(fneg (Fr.ofInt 1), fneg (Fr.ofInt 1), fneg (Fr.ofInt 1))]]
      (Fr.ofInt 1)).1.1 = 3 ∧
    (⌊(((-1 : ℚ) - (-1)) / 1)⌋ + 2 = 2) ∧
    (construct_grid [[(fneg (Fr.ofInt 1), fneg (Fr.ofInt 1), fneg (Fr.ofInt 1))]]
      (Fr.ofInt 1)).2.1 = fneg (Fr.ofInt 1) := by
  refine ⟨by decide, by norm_num, by decide⟩

/-! ## Claim C4: the cell area array of tessellate_grid

The zero store of an excluded cell uses the stride dimy instead of
dimy - 1, so it can land in the slot of a LATER cell (or out of range,
claim C5); the lemmas below show the final array is nevertheless the
intended one: the zero target of a cell never precedes its own slot in
the row-major slot order, so a misdirected zero write only hits slots
that are still zero and are overwritten afterwards when their own cell
computes an area. -/

theorem cellArea_nonneg (g : TGrid) (x y : ℕ) : 0 ≤ cellArea g x y := by
  unfold cellArea norm3
  dsimp only
  positivity

theorem cellVal_nonneg (g : TGrid) (c : ℕ × ℕ) : 0 ≤ cellVal g c := by
  unfold cellVal
  split
  · exact le_refl 0
  · exact cellArea_nonneg g c.1 c.2

theorem storeArea_self (g : TGrid) (ar : ℕ → ℝ) (i : ℕ) (v : ℝ)
    (h : i < areaSize g) : storeArea g ar i v i = v := by
  unfold storeArea
  rw [if_pos ⟨h, rfl⟩]

theorem storeArea_other (g : TGrid) (ar : ℕ → ℝ) (i : ℕ) (v : ℝ) (j : ℕ)
    (h : j ≠ i) : storeArea g ar i v j = ar j := by
  unfold storeArea
  rw [if_neg (fun hh => h hh.2)]

theorem storeArea_zero (g : TGrid) (ar : ℕ → ℝ) (i j : ℕ) (hz : ar j = 0) :
    storeArea g ar i 0 j = 0 := by
  unfold storeArea
  split
  · rfl
  · exact hz

theorem slotOf_le_zeroIdx (g : TGrid) (x y : ℕ) :
    slotOf g x y ≤ zeroIdx g x y := by
  unfold slotOf zeroIdx
  have : x * (g.dimy - 1) ≤ x * g.dimy := Nat.mul_le_mul_left x (Nat.sub_le _ _)
  omega

theorem map_slot_rowMajor (m n : ℕ) :
    (rowMajor m n).map (fun c => c.1 * n + c.2) = List.range (m * n) := by
  induction m with
  | zero => simp [rowMajor]
  | succ k ih =>
    unfold rowMajor at ih ⊢
    rw [List.range_succ, List.flatMap_append, List.map_append, ih,
      Nat.succ_mul, List.range_add]
    congr 1
    simp [List.flatMap_cons, List.map_map, Function.comp_def]

theorem rowMajor_pairwise (m n : ℕ) :
    (rowMajor m n).Pairwise
      (fun c d => c.1 * n + c.2 < d.1 * n + d.2) := by
  have h := List.pairwise_lt_range (m * n)
  rw [← map_slot_rowMajor m n, List.pairwise_map] at h
  exact h

theorem slot_lt_of_mem_rowMajor (m n : ℕ) (c : ℕ × ℕ)
    (h : c ∈ rowMajor m n) : c.1 * n + c.2 < m * n := by
  have : c.1 * n + c.2 ∈ (rowMajor m n).map (fun c => c.1 * n + c.2) :=
    List.mem_map_of_mem _ h
  rw [map_slot_rowMajor] at this
  exact List.mem_range.1 this

theorem mem_rowMajor (m n : ℕ) (x y : ℕ) :
    (x, y) ∈ rowMajor m n ↔ x < m ∧ y < n := by
  unfold rowMajor
  simp only [List.mem_flatMap, List.mem_map, List.mem_range, Prod.mk.injEq]
  constructor
  · rintro ⟨a, ha, b, hb, hax, hby⟩
    exact ⟨hax ▸ ha, hby ▸ hb⟩
  · rintro ⟨hx, hy⟩
    exact ⟨x, hx, y, hy, rfl, rfl⟩

theorem tessFold_frame (g : TGrid) :
    ∀ (rem : List (ℕ × ℕ)) (st : (ℕ → ℝ) × ℝ) (i : ℕ),
    (∀ c ∈ rem, i ≠ slotOf g c.1 c.2 ∧ i ≠ zeroIdx g c.1 c.2) →
    (rem.foldl (tessStep g) st).1 i = st.1 i := by
  intro rem
  induction rem with
  | nil => intro st i _; rfl
  | cons c rest ih =>
    intro st i hcond
    rw [List.foldl_cons, ih _ i (fun d hd => hcond d (List.mem_cons_of_mem c hd))]
    have hc := hcond c (List.mem_cons_self c rest)
    unfold tessStep
    split
    · exact storeArea_other g _ _ _ i hc.2
    · exact storeArea_other g _ _ _ i hc.1

theorem tessFold_nonneg (g : TGrid) :
    ∀ (rem : List (ℕ × ℕ)) (st : (ℕ → ℝ) × ℝ),
    (∀ i, 0 ≤ st.1 i) → ∀ i, 0 ≤ (rem.foldl (tessStep g) st).1 i := by
  intro rem
  induction rem with
  | nil => intro st h i; exact h i
  | cons c rest ih =>
    intro st h i
    rw [List.foldl_cons]
    refine ih _ (fun j => ?_) i
    unfold tessStep storeArea
    split
    · dsimp only
      split
      · exact le_refl 0
      · exact h j
    · dsimp only
      split
      · exact cellArea_nonneg g c.1 c.2
      · exact h j

theorem tessFold_sum (g : TGrid) :
    ∀ (rem : List (ℕ × ℕ)) (st : (ℕ → ℝ) × ℝ),
    (rem.foldl (tessStep g) st).2 = st.2 + (rem.map (cellVal g)).sum := by
  intro rem
  induction rem with
  | nil => intro st; simp
  | cons c rest ih =>
    intro st
    rw [List.foldl_cons, ih, List.map_cons, List.sum_cons]
    unfold tessStep cellVal
    by_cases hexc : cellExcluded g c.1 c.2 = true
    · rw [if_pos hexc, if_pos hexc]
      dsimp only
      ring
    · rw [if_neg hexc, if_neg hexc]
      dsimp only
      ring

theorem tessFold_slots (g : TGrid) :
    ∀ (rem : List (ℕ × ℕ)) (st : (ℕ → ℝ) × ℝ),
    rem.Pairwise (fun c d => slotOf g c.1 c.2 < slotOf g d.1 d.2) →
    (∀ c ∈ rem, slotOf g c.1 c.2 < areaSize g) →
    (∀ c ∈ rem, st.1 (slotOf g c.1 c.2) = 0) →
    ∀ c ∈ rem, (rem.foldl (tessStep g) st).1 (slotOf g c.1 c.2) = cellVal g c := by
  intro rem
  induction rem with
  | nil => intro st _ _ _ c hc; cases hc
  | cons c rest ih =>
    intro st hpair hsize hzero d hd
    have hpairc := (List.pairwise_cons.1 hpair).1
    have hpairt := (List.pairwise_cons.1 hpair).2
    rw [List.foldl_cons]
    rcases List.mem_cons.1 hd with rfl | hdrest
    · rw [tessFold_frame g rest _ _ (fun e he => ?_)]
      · have hz := hzero d (List.mem_cons_self d rest)
        have hs := hsize d (List.mem_cons_self d rest)
        unfold tessStep cellVal
        by_cases hexc : cellExcluded g d.1 d.2 = true
        · rw [if_pos hexc, if_pos hexc]
          exact storeArea_zero g _ _ _ hz
        · rw [if_neg hexc, if_neg hexc]
          exact storeArea_self g _ _ _ hs
      · have h1 : slotOf g d.1 d.2 < slotOf g e.1 e.2 := hpairc e he
        have h2 : slotOf g e.1 e.2 ≤ zeroIdx g e.1 e.2 := slotOf_le_zeroIdx g e.1 e.2
        omega
    · refine ih _ hpairt (fun e he => hsize e (List.mem_cons_of_mem c he))
        (fun e he => ?_) d hdrest
      have hne : slotOf g e.1 e.2 ≠ slotOf g c.1 c.2 :=
        fun hh => absurd (hh ▸ hpairc e he) (lt_irrefl _)
      have hz := hzero e (List.mem_cons_of_mem c he)
      unfold tessStep
      split
      · exact storeArea_zero g _ _ _ hz
      · exact (storeArea_other g _ _ _ _ hne).trans hz

theorem sum_range_map (f : ℕ → ℝ) (n : ℕ) :
    ((List.range n).map f).sum = ∑ i in Finset.range n, f i := by
  induction n with
  | zero => simp
  | succ k ih =>
    rw [List.range_succ, Finset.sum_range_succ, List.map_append,
      List.sum_append, ih]
    simp

theorem sum_rowMajor (f : ℕ × ℕ → ℝ) (m n : ℕ) :
    ((rowMajor m n).map f).sum =
      ∑ x in Finset.range m, ∑ y in Finset.range n, f (x, y) := by
  induction m with
  | zero => simp [rowMajor]
  | succ k ih =>
    unfold rowMajor at ih ⊢
    rw [List.range_succ, List.flatMap_append, List.map_append, List.sum_append,
      ih, Finset.sum_range_succ]
    congr 1
    rw [← sum_range_map (fun y => f (k, y)) n]
    simp [List.flatMap_cons, List.map_map, Function.comp_def]

/-- Claim C4: after tessellate_grid, every entry of the cell area array
is nonnegative; every cell one of whose four corner heightmap values is
-1 has a zero entry at its slot; and surface_area equals the sum of all
cell entries. -/
theorem tessellate_grid_spec (g : TGrid) :
    (∀ i, 0 ≤ areasOut g i) ∧
    (∀ x y, x < g.dimx - 1 → y < g.dimy - 1 →
      (hmAt g x y = -1 ∨ hmAt g x (y + 1) = -1 ∨ hmAt g (x + 1) y = -1 ∨
        hmAt g (x + 1) (y + 1) = -1) →
      areasOut g (slotOf g x y) = 0) ∧
    surface_area g = ∑ x in Finset.range (g.dimx - 1),
      ∑ y in Finset.range (g.dimy - 1), areasOut g (slotOf g x y) := by
  have hpair := rowMajor_pairwise (g.dimx - 1) (g.dimy - 1)
  have hsize : ∀ c ∈ rowMajor (g.dimx - 1) (g.dimy - 1),
      slotOf g c.1 c.2 < areaSize g :=
    fun c hc => slot_lt_of_mem_rowMajor _ _ c hc
  have hslots := tessFold_slots g (rowMajor (g.dimx - 1) (g.dimy - 1))
    (fun _ => 0, 0) hpair hsize (fun _ _ => rfl)
  have hout : ∀ c ∈ rowMajor (g.dimx - 1) (g.dimy - 1),
      areasOut g (slotOf g c.1 c.2) = cellVal g c := by
    intro c hc
    unfold areasOut tessellate_grid
    exact hslots c hc
  refine ⟨?_, ?_, ?_⟩
  · intro i
    exact tessFold_nonneg g _ (fun _ => 0, 0) (fun _ => le_refl 0) i
  · intro x y hx hy hcorner
    have hmem : (x, y) ∈ rowMajor (g.dimx - 1) (g.dimy - 1) :=
      (mem_rowMajor _ _ x y).2 ⟨hx, hy⟩
    have hexc : cellExcluded g x y = true := by
      unfold cellExcluded
      rcases hcorner with h | h | h | h <;> simp [h]
    have := hout (x, y) hmem
    rw [this]
    unfold cellVal
    rw [if_pos hexc]
  · have hmap : (rowMajor (g.dimx - 1) (g.dimy - 1)).map
        (fun c => areasOut g (slotOf g c.1 c.2)) =
        (rowMajor (g.dimx - 1) (g.dimy - 1)).map (cellVal g) :=
      List.map_congr_left (fun c hc => hout c hc)
    unfold surface_area tessellate_grid
    rw [tessFold_sum g _ (fun _ => 0, 0), zero_add,
      ← sum_rowMajor (fun c => areasOut g (slotOf g c.1 c.2)), hmap]

/-- Witness of claim C4 on the concrete 2 by 2 grid whose single cell is
excluded: its entry is nonnegative and zero. -/
theorem tessellate_grid_spec_witness :
    0 ≤ areasOut gW 0 ∧ areasOut gW (slotOf gW 0 0) = 0 :=
  ⟨(tessellate_grid_spec gW).1 0,
   (tessellate_grid_spec gW).2.1 0 0 (by decide) (by decide) (Or.inl rfl)⟩


/-! ## Meaning of the exact scalars

The operations on Fr mean exactly rational arithmetic: under positive
denominators, flt decides the rational order and fsub, fadd, fmul, fneg
commute with the valuation.  Every comparison of the embedded code is
therefore the comparison of the real values the C program computes with
exact predicates. -/

theorem flt_eq_val_lt (a b : Fr) (ha : 0 < a.den) (hb : 0 < b.den) :
    flt a b = true ↔ a.val < b.val := by
  unfold flt Fr.val
  rw [decide_eq_true_iff, div_lt_div_iff₀ (by exact_mod_cast ha) (by exact_mod_cast hb)]
  exact_mod_cast Iff.rfl

theorem fsub_val (a b : Fr) (ha : a.den ≠ 0) (hb : b.den ≠ 0) :
    (fsub a b).val = a.val - b.val := by
  unfold fsub Fr.val
  have ha2 : (a.den : ℚ) ≠ 0 := by exact_mod_cast ha
  have hb2 : (b.den : ℚ) ≠ 0 := by exact_mod_cast hb
  field_simp
  ring

theorem fadd_val (a b : Fr) (ha : a.den ≠ 0) (hb : b.den ≠ 0) :
    (fadd a b).val = a.val + b.val := by
  unfold fadd Fr.val
  have ha2 : (a.den : ℚ) ≠ 0 := by exact_mod_cast ha
  have hb2 : (b.den : ℚ) ≠ 0 := by exact_mod_cast hb
  field_simp

theorem fmul_val (a b : Fr) : (fmul a b).val = a.val * b.val := by
  unfold fmul Fr.val
  push_cast
  rw [div_mul_div_comm]

theorem fneg_val (a : Fr) : (fneg a).val = -a.val := by
  unfold fneg Fr.val
  push_cast
  ring

end GTess
